import Mathlib

/-
Shallow embedding of src/synth.py (a small offline additive synthesizer).

Python floating-point numbers are modelled as real numbers; the global
mixer clock (a float advanced by 1000/44100 per tick and compared against
integer start times) is modelled as a rational number so that the
comparisons stay decidable.  Python iterators/generators are modelled as
explicit state-passing functions; a generator whose body raises
StopIteration is modelled with Option (none = exhaustion).  The code is
Python 2, where a StopIteration escaping a generator body simply ends the
generated stream.
-/

namespace Synth

/-- Table of chord symbols, from synth.py lines 8-13.  The Python dict
raises KeyError on an unknown symbol; the claims only ever look up the
four defined symbols, so the fall-through value is an empty list. -/
def CHORDS (s : String) : List ℤ :=
  if s = "Dm7" then [38, 50, 53, 57, 60]
  else if s = "G7" then [31, 50, 53, 55, 59]
  else if s = "Cmaj7" then [36, 48, 52, 55, 59]
  else if s = "C6" then [36, 48, 52, 57, 64]
  else []

/-- Progression constant, synth.py line 6. -/
def PROGRESSION : List String := ["Cmaj7", "Dm7", "G7", "C6"]

/-- Coefficient formula from ADSREnvelope.__init__ (line 52):
1.0 - exp(-1.0 / (time * 44100.0)). -/
noncomputable def compute_coefficient (time : ℝ) : ℝ :=
  1 - Real.exp (-1 / (time * 44100))

/-- Class constant from line 45 of synth.py: 1.0 - 1.0 / e
(the source calls it the class attribute ratio of the envelope). -/
noncomputable def envRatio : ℝ := 1 - 1 / Real.exp 1

/-- State of one ADSREnvelope object: the two phase flags, the current
level, and the four per-object coefficients computed in __init__
(synth.py lines 47-57). -/
structure ADSREnvelope where
  attacking : Bool
  released : Bool
  level : ℝ
  attack : ℝ
  decay : ℝ
  sustain : ℝ
  release : ℝ

/-- ADSREnvelope.__init__ (synth.py lines 47-57). -/
noncomputable def ADSREnvelope.init (attack decay sustain release : ℝ) : ADSREnvelope :=
  { attacking := true
    released := false
    level := 0
    attack := compute_coefficient attack
    decay := compute_coefficient decay
    sustain := sustain
    release := compute_coefficient release }

/-- ADSREnvelope.trigger_release (synth.py lines 62-63). -/
def ADSREnvelope.trigger_release (e : ADSREnvelope) : ADSREnvelope :=
  { e with released := true }

/-- ADSREnvelope.next (synth.py lines 65-81).  Returns the post-update
level and the updated state, or none when the method raises
StopIteration (released level fell below zero). -/
noncomputable def ADSREnvelope.next (e : ADSREnvelope) : Option (ℝ × ADSREnvelope) :=
  if e.released then
    let lvl := e.level + e.release * (1 - 1 / envRatio - e.level)
    if lvl < 0 then none
    else some (lvl, { e with level := lvl })
  else if e.attacking then
    let lvl := e.level + e.attack * (1 / envRatio - e.level)
    if 1 < lvl then some (1, { e with level := 1, attacking := false })
    else some (lvl, { e with level := lvl })
  else
    let lvl := e.level + e.decay * (e.sustain - e.level)
    some (lvl, { e with level := lvl })

/-- n-fold iteration of ADSREnvelope.next, tracking only the state and
propagating exhaustion. -/
noncomputable def ADSREnvelope.run (e : ADSREnvelope) : ℕ → Option ADSREnvelope
  | 0 => some e
  | n + 1 => (ADSREnvelope.run e n).bind fun w => w.next.map Prod.snd

/-- Oscillator frequency formula, synth.py line 86:
(2.0 ** ((pitch - 69.0) / 12.0)) * 440.0. -/
noncomputable def frequency (pitch : ℝ) : ℝ := 2 ^ ((pitch - 69) / 12) * 440

/-- State of one oscillator generator (synth.py lines 83-91): current
phase and the per-sample phase increment. -/
structure OscState where
  phi : ℝ
  delta : ℝ

/-- Creation of an oscillator generator for a pitch (lines 85-87):
phase 0 and delta = 2 pi f / 44100. -/
noncomputable def oscillator (pitch : ℝ) : OscState :=
  { phi := 0, delta := 2 * Real.pi * frequency pitch / 44100 }

/-- One step of the oscillator loop (lines 89-91): yield
sin(phi) + sin(2 phi), then advance the phase.  The loop is
unconditional (while True), so the step is total: the oscillator never
signals exhaustion. -/
noncomputable def OscState.next (s : OscState) : ℝ × OscState :=
  (Real.sin s.phi + Real.sin (2 * s.phi), { s with phi := s.phi + s.delta })

/-- Oscillator state after n samples have been produced. -/
noncomputable def oscRun (s : OscState) : ℕ → OscState
  | 0 => s
  | n + 1 => (oscRun s n).next.2

/-- The n-th sample (counting from 0) produced by the oscillator for a
pitch.  Total in n: the sequence is infinite. -/
noncomputable def oscSamples (pitch : ℝ) (n : ℕ) : ℝ :=
  ((oscRun (oscillator pitch) n).next).1

/-- State of one Voice object (synth.py lines 15-24): note, planned
length, released flag, elapsed tick counter t, and the owned oscillator
and envelope.  Lengths are Python ints, hence naturals here. -/
structure Voice where
  note : ℤ
  length : ℕ
  released : Bool
  t : ℕ
  osc : OscState
  adsr : ADSREnvelope

/-- Voice.__init__ (synth.py lines 16-24), with the hard-coded envelope
parameters ADSREnvelope(0.1, 1.0, 0.7, 3.0). -/
noncomputable def Voice.init (note : ℤ) (length : ℕ) : Voice :=
  { note := note
    length := length
    released := false
    t := 0
    osc := oscillator (note : ℝ)
    adsr := ADSREnvelope.init 0.1 1 0.7 3 }

/-- Voice.next (synth.py lines 29-40): when t has reached the planned
length, set released and call trigger_release (the check happens before
t is incremented); then increment t; then multiply the next envelope
level by the next oscillator sample.  A StopIteration raised by the
envelope propagates (none). -/
noncomputable def Voice.next (v : Voice) : Option (ℝ × Voice) :=
  let v1 := if v.length ≤ v.t
    then { v with released := true, adsr := v.adsr.trigger_release }
    else v
  let v2 := { v1 with t := v1.t + 1 }
  match v2.adsr.next with
  | none => none
  | some (envLevel, adsr) =>
    let osc := v2.osc.next
    some (envLevel * osc.1, { v2 with adsr := adsr, osc := osc.2 })

/-- Voice state after n sample requests (none once a request has raised
StopIteration). -/
noncomputable def Voice.steps (v : Voice) : ℕ → Option Voice
  | 0 => some v
  | n + 1 => (Voice.steps v n).bind fun w => w.next.map Prod.snd

/-- Condition of synth.py line 30 (self.t >= self.length): whether a
sample request arriving at this state invokes trigger_release. -/
def Voice.triggersReleaseNow (v : Voice) : Bool := decide (v.length ≤ v.t)

/-- Whether the k-th sample request (ordinals counted from 1) made to a
voice that starts in state v invokes ADSREnvelope.trigger_release.  The
request exists only while the voice is alive, i.e. while the first k-1
requests all returned a sample. -/
noncomputable def triggersDuringRequest (v : Voice) (k : ℕ) : Bool :=
  match Voice.steps v (k - 1) with
  | some w => w.triggersReleaseNow
  | none => false

/-- chord_generator (synth.py lines 97-99). -/
def chord_generator (syms : List String) : List (List ℤ) := syms.map CHORDS

/-- comp_pattern_generator (synth.py lines 101-109): six (length, notes)
events per chord.  Python chord[0:1] is List.take 1, and chord[0] + 7 is
the root raised by 7 semitones (headI; the source would raise IndexError
on an empty chord, which no caller produces). -/
def comp_pattern_generator (chords : List (List ℤ)) : List (ℕ × List ℤ) :=
  chords.flatMap fun chord =>
    [(600, chord), (300, chord.take 1), (300, chord),
     (600, chord.take 1), (300, chord), (300, [chord.headI + 7])]

/-- voice_generator (synth.py lines 111-117) with the running start time
as an explicit accumulator. -/
noncomputable def voice_generator_from (t : ℕ) : List (ℕ × List ℤ) → List (ℕ × List Voice)
  | [] => []
  | ev :: rest =>
    (t, ev.2.map fun pitch => Voice.init pitch ev.1) :: voice_generator_from (t + ev.1) rest

/-- voice_generator (synth.py lines 111-117): t starts at 0. -/
noncomputable def voice_generator (evs : List (ℕ × List ℤ)) : List (ℕ × List Voice) :=
  voice_generator_from 0 evs

/-- State of the voice_combiner generator (synth.py lines 119-156)
between ticks: the clock t, the stopping flag, the voice pool, the
already-pulled but not yet admitted (voice_time, voice_list) pair
(none once the source is exhausted, standing for voice_time = inf),
and the rest of the group iterator. -/
structure MixerState where
  t : ℚ
  stopping : Bool
  voice_pool : List Voice
  current : Option (ℚ × List Voice)
  upcoming : List (ℚ × List Voice)

/-- Admission loop of synth.py lines 127-135: while t >= voice_time,
extend the pool with the current group and pull the next one; when the
pull raises StopIteration, voice_time becomes inf (none) and stopping is
set.  Returns (pool, stopping, current, upcoming) after the loop. -/
def admitVoices (t : ℚ) :
    List Voice → Bool → Option (ℚ × List Voice) → List (ℚ × List Voice) →
    List Voice × Bool × Option (ℚ × List Voice) × List (ℚ × List Voice)
  | pool, stopping, none, up => (pool, stopping, none, up)
  | pool, stopping, some g, up =>
    if g.1 ≤ t then
      match up with
      | [] => (pool ++ g.2, true, none, [])
      | h :: rest => admitVoices t (pool ++ g.2) stopping (some h) rest
    else (pool, stopping, some g, up)

/-- Mixing pass of synth.py lines 137-149: pull one sample from every
pooled voice in order, sum the produced samples, and keep (in order)
exactly the voices that did not raise StopIteration.  The Python code
collects raising voices in pending_removal and removes them only after
the pass; since removal is by object identity, the net effect is the
positional filter modelled here.  The Python sum is accumulated left to
right, which over the reals equals this right fold. -/
noncomputable def pollVoices : List Voice → ℝ × List Voice
  | [] => (0, [])
  | v :: rest =>
    match v.next with
    | some (x, w) =>
      let p := pollVoices rest
      (x + p.1, w :: p.2)
    | none => pollVoices rest

/-- One iteration of the while-True loop of voice_combiner (synth.py
lines 126-156): admit due groups, mix, drop exhausted voices, stop (none)
when stopping is set and the pool came out empty, otherwise yield the
mixed sample and advance the clock by 1000/44100. -/
noncomputable def voice_combiner_step (st : MixerState) : Option (ℝ × MixerState) :=
  let a := admitVoices st.t st.voice_pool st.stopping st.current st.upcoming
  let m := pollVoices a.1
  if a.2.1 && m.2.isEmpty then none
  else some (m.1,
    { t := st.t + 1000 / 44100
      stopping := a.2.1
      voice_pool := m.2
      current := a.2.2.1
      upcoming := a.2.2.2 })

/-- Construction of the voice_combiner generator (synth.py lines
121-124): the first group is pulled unconditionally before the tick loop
begins; an empty source makes that pull raise StopIteration, which ends
the generator before any sample is produced (Python 2 semantics). -/
def voice_combiner_init : List (ℚ × List Voice) → Option MixerState
  | [] => none
  | g :: rest =>
    some { t := 0, stopping := false, voice_pool := [], current := some g, upcoming := rest }

/-- Mixer state after n ticks (none once the stream has ended). -/
noncomputable def mixerAfter (st : MixerState) : ℕ → Option MixerState
  | 0 => some st
  | n + 1 => (mixerAfter st n).bind fun s => (voice_combiner_step s).map Prod.snd

/-- The sample yielded on tick n (counting from 0), if the stream still
produces one. -/
noncomputable def mixerSample (st : MixerState) (n : ℕ) : Option ℝ :=
  (mixerAfter st n).bind fun s => (voice_combiner_step s).map Prod.fst

/-- voice_combiner as a stream: the n-th output sample for a given
finite list of (start time, voice group) pairs. -/
noncomputable def voice_combiner (groups : List (ℚ × List Voice)) (n : ℕ) : Option ℝ :=
  (voice_combiner_init groups).bind fun st => mixerSample st n

/-- amplifier (synth.py lines 93-95), as a map over the sample stream. -/
noncomputable def amplifier (gain : ℝ) (signal : ℕ → Option ℝ) : ℕ → Option ℝ :=
  fun n => (signal n).map fun sample => gain * sample

/-- quantizer body (synth.py lines 158-160): int(32767.0 * sample).
Python int() truncates toward zero: floor for non-negative reals,
ceiling for negative ones.  No clamping. -/
noncomputable def quantize (sample : ℝ) : ℤ :=
  if 0 ≤ sample then ⌊32767 * sample⌋ else ⌈32767 * sample⌉

/-- quantizer (synth.py lines 158-160) as a map over the stream. -/
noncomputable def quantizer (signal : ℕ → Option ℝ) : ℕ → Option ℤ :=
  fun n => (signal n).map quantize

/-- Pipeline stage, synth.py line 163. -/
def chords : List (List ℤ) := chord_generator PROGRESSION

/-- Pipeline stage, synth.py line 164. -/
def comp_pattern : List (ℕ × List ℤ) := comp_pattern_generator chords

/-- Pipeline stage, synth.py line 165. -/
noncomputable def voices : List (ℕ × List Voice) := voice_generator comp_pattern

/-- Pipeline stage, synth.py line 166 (start times cast into the clock
domain). -/
noncomputable def samples : ℕ → Option ℝ :=
  voice_combiner (voices.map fun g => ((g.1 : ℚ), g.2))

/-- Pipeline stage, synth.py line 167. -/
noncomputable def attenuated_samples : ℕ → Option ℝ := amplifier 0.5 samples

/-- Pipeline stage, synth.py line 168. -/
noncomputable def output : ℕ → Option ℤ := quantizer attenuated_samples

/-- Pool produced by the admission loop at the start of a tick. -/
def admittedPool (st : MixerState) : List Voice :=
  (admitVoices st.t st.voice_pool st.stopping st.current st.upcoming).1

/-- Stopping flag after the admission loop of a tick. -/
def admittedStopping (st : MixerState) : Bool :=
  (admitVoices st.t st.voice_pool st.stopping st.current st.upcoming).2.1

/-- Envelope facts that hold for every envelope built by Voice.__init__
(the coefficients of ADSREnvelope(0.1, 1.0, 0.7, 3.0)) together with the
level range that every successful update preserves. -/
def EnvOK (e : ADSREnvelope) : Prop :=
  e.attack = compute_coefficient 0.1 ∧ e.decay = compute_coefficient 1 ∧
  e.sustain = 0.7 ∧ e.release = compute_coefficient 3 ∧
  0 ≤ e.level ∧ e.level ≤ 1 / envRatio

/-- Invariant for voices handled by the mixer. -/
def VoiceOK (v : Voice) : Prop := EnvOK v.adsr

/-- Number of voice groups not yet admitted (the pre-pulled pair plus
the rest of the iterator). -/
def groupsCount (cur : Option (ℚ × List Voice)) (up : List (ℚ × List Voice)) : ℕ :=
  up.length + (match cur with | none => 0 | some _ => 1)

/-- All voices of the not-yet-admitted groups satisfy the voice
invariant. -/
def GroupsOK (cur : Option (ℚ × List Voice)) (up : List (ℚ × List Voice)) : Prop :=
  (∀ g ∈ cur.toList, ∀ v ∈ g.2, VoiceOK v) ∧ ∀ g ∈ up, ∀ v ∈ g.2, VoiceOK v

/-- Invariant tying together the reachable states of the mixer: the
stopping flag mirrors exhaustion of the group source, and every voice in
sight satisfies the voice invariant. -/
def MixerOK (st : MixerState) : Prop :=
  st.stopping = st.current.isNone ∧ (∀ v ∈ st.voice_pool, VoiceOK v) ∧
  GroupsOK st.current st.upcoming

/-! Numeric facts about the envelope constants. -/

lemma exp_one_ge_two : (2 : ℝ) ≤ Real.exp 1 := by
  have h := Real.add_one_le_exp (1 : ℝ)
  linarith

lemma envRatio_ge_half : (1 : ℝ) / 2 ≤ envRatio := by
  unfold envRatio
  have h1 : (0 : ℝ) < 2 := by norm_num
  have h2 : 1 / Real.exp 1 ≤ 1 / 2 := one_div_le_one_div_of_le h1 exp_one_ge_two
  linarith

lemma envRatio_pos : 0 < envRatio := lt_of_lt_of_le (by norm_num) envRatio_ge_half

lemma envRatio_lt_one : envRatio < 1 := by
  unfold envRatio
  have h : 0 < 1 / Real.exp 1 := by positivity
  linarith

lemma one_lt_inv_envRatio : 1 < 1 / envRatio :=
  (one_lt_div envRatio_pos).mpr envRatio_lt_one

lemma inv_envRatio_pos : 0 < 1 / envRatio := one_div_pos.mpr envRatio_pos

lemma inv_envRatio_le_two : 1 / envRatio ≤ 2 := by
  rw [div_le_iff₀ envRatio_pos]
  have := envRatio_ge_half
  linarith

lemma releaseTarget_neg : 1 - 1 / envRatio < 0 := by
  have := one_lt_inv_envRatio
  linarith

lemma releaseTarget_ge_neg_one : -1 ≤ 1 - 1 / envRatio := by
  have := inv_envRatio_le_two
  linarith

lemma compute_coefficient_lt_one (time : ℝ) : compute_coefficient time < 1 := by
  unfold compute_coefficient
  have := Real.exp_pos (-1 / (time * 44100))
  linarith

lemma compute_coefficient_pos {time : ℝ} (h : 0 < time) : 0 < compute_coefficient time := by
  unfold compute_coefficient
  have hx : (-1 : ℝ) / (time * 44100) < 0 := by
    apply div_neg_of_neg_of_pos (by norm_num)
    positivity
  have h1 : Real.exp (-1 / (time * 44100)) < Real.exp 0 := Real.exp_lt_exp.mpr hx
  rw [Real.exp_zero] at h1
  linarith

lemma compute_coefficient_le (time : ℝ) : compute_coefficient time ≤ 1 / (time * 44100) := by
  unfold compute_coefficient
  have h := Real.add_one_le_exp (-1 / (time * 44100))
  have e : (-1 : ℝ) / (time * 44100) = -(1 / (time * 44100)) := by ring
  linarith [h, e.ge, e.le]

lemma cA_le : compute_coefficient 0.1 ≤ 1 / 4410 := by
  have h := compute_coefficient_le 0.1
  norm_num at h
  linarith [h]

lemma cA_ge : (1 : ℝ) / 4411 ≤ compute_coefficient 0.1 := by
  unfold compute_coefficient
  have h : (4411 : ℝ) / 4410 ≤ Real.exp (1 / 4410) := by
    have := Real.add_one_le_exp ((1 : ℝ) / 4410)
    linarith
  have hpos : (0 : ℝ) < 4411 / 4410 := by norm_num
  have h3 : 1 / Real.exp (1 / 4410) ≤ 1 / ((4411 : ℝ) / 4410) :=
    one_div_le_one_div_of_le hpos h
  have e1 : (-1 : ℝ) / (0.1 * 44100) = -(1 / 4410) := by norm_num
  rw [e1, Real.exp_neg, inv_eq_one_div]
  have e2 : 1 / ((4411 : ℝ) / 4410) = 4410 / 4411 := by norm_num
  rw [e2] at h3
  linarith

lemma cR_le : compute_coefficient 3 ≤ 1 / 132300 := by
  have h := compute_coefficient_le 3
  norm_num at h
  linarith [h]

lemma cR_pos : 0 < compute_coefficient 3 := compute_coefficient_pos (by norm_num)

lemma cR_lt_one : compute_coefficient 3 < 1 := compute_coefficient_lt_one 3

lemma cA_pos : 0 < compute_coefficient 0.1 := compute_coefficient_pos (by norm_num)

lemma cA_lt_one : compute_coefficient 0.1 < 1 := compute_coefficient_lt_one 0.1

lemma cD_pos : 0 < compute_coefficient 1 := compute_coefficient_pos (by norm_num)

lemma cD_lt_one : compute_coefficient 1 < 1 := compute_coefficient_lt_one 1

/-! Claim theorems for the leaf components. -/

/-- Claim C10: with an empty voice-group sequence the mixer produces no
samples at all -- the unconditional pull of the first group before the
tick loop propagates exhaustion at construction, so the output stream is
empty rather than containing silence samples; with a non-empty sequence
the initial state is built with clock 0, stopping unset, an empty pool,
and the first group pre-pulled. -/
theorem claim_C10_empty_input (n : ℕ) :
    voice_combiner_init [] = none ∧ voice_combiner [] n = none ∧
    ∀ g rest, voice_combiner_init (g :: rest) =
      some { t := 0, stopping := false, voice_pool := [], current := some g,
             upcoming := rest } :=
  ⟨rfl, rfl, fun _ _ => rfl⟩

/-- Claim C8: the amplifier multiplies every produced sample by the
fixed gain 0.5, and the quantizer maps a float sample x to 32767 * x
truncated toward zero (floor for non-negative input, ceiling for
negative input) with no clamping; quantizing 1.0 yields 32767 and
quantizing -1.0 yields -32767. -/
theorem claim_C8_amplifier_quantizer :
    (∀ (signal : ℕ → Option ℝ) (n : ℕ) (x : ℝ),
        signal n = some x → amplifier 0.5 signal n = some (0.5 * x)) ∧
    (∀ x : ℝ, 0 ≤ x →
        (quantize x : ℝ) ≤ 32767 * x ∧ 32767 * x - 1 < (quantize x : ℝ)) ∧
    (∀ x : ℝ, x ≤ 0 →
        32767 * x ≤ (quantize x : ℝ) ∧ (quantize x : ℝ) < 32767 * x + 1) ∧
    quantize 1 = 32767 ∧ quantize (-1) = -32767 := by
  refine ⟨fun signal n x hx => ?_, fun x hx => ?_, fun x hx => ?_, ?_, ?_⟩
  · simp [amplifier, hx]
  · rw [quantize, if_pos hx]
    exact ⟨Int.floor_le _, by linarith [Int.sub_one_lt_floor (32767 * x)]⟩
  · by_cases h0 : 0 ≤ x
    · have hx0 : x = 0 := le_antisymm hx h0
      subst hx0
      rw [quantize, if_pos le_rfl]
      norm_num
    · rw [quantize, if_neg h0]
      exact ⟨Int.le_ceil _, by linarith [Int.ceil_lt_add_one (32767 * x)]⟩
  · rw [quantize, if_pos zero_le_one]
    rw [show (32767 : ℝ) * 1 = ((32767 : ℤ) : ℝ) by norm_num, Int.floor_intCast]
  · rw [quantize, if_neg (by norm_num)]
    rw [show (32767 : ℝ) * (-1) = ((-32767 : ℤ) : ℝ) by norm_num, Int.ceil_intCast]

/-- Witness for claim C8 at the concrete sample 1/2. -/
theorem claim_C8_witness :
    (quantize (1 / 2 : ℝ) : ℝ) ≤ 32767 * (1 / 2 : ℝ) ∧
      32767 * (1 / 2 : ℝ) - 1 < (quantize (1 / 2 : ℝ) : ℝ) :=
  claim_C8_amplifier_quantizer.2.1 (1 / 2) one_half_pos.le

lemma oscRun_spec (x : ℝ) (n : ℕ) :
    (oscRun (oscillator x) n).phi = n * (oscillator x).delta ∧
    (oscRun (oscillator x) n).delta = (oscillator x).delta := by
  induction n with
  | zero => simp [oscRun, oscillator]
  | succ n ih =>
    constructor
    · simp only [oscRun, OscState.next, ih.1, ih.2, Nat.cast_succ]
      ring
    · simp [oscRun, OscState.next, ih.2]

/-- Claim C7: frequency(p) = 440 * 2^((p - 69)/12) with
frequency(69) = 440 exactly; the n-th oscillator sample (from n = 0) is
sin(n * delta) + sin(2 * n * delta) with delta = 2 pi frequency / 44100,
i.e. the phase starts at 0 and advances by delta per sample; the sample
function is total in n, so the sequence is infinite (the generator loop
is unconditional and never signals exhaustion). -/
theorem claim_C7_oscillator (p : ℤ) (n : ℕ) :
    oscSamples (p : ℝ) n =
      Real.sin (n * (2 * Real.pi * frequency (p : ℝ) / 44100)) +
        Real.sin (2 * (n * (2 * Real.pi * frequency (p : ℝ) / 44100))) ∧
    frequency (p : ℝ) = 440 * 2 ^ (((p : ℝ) - 69) / 12) ∧
    frequency 69 = 440 := by
  refine ⟨?_, by rw [frequency, mul_comm], by unfold frequency; norm_num⟩
  have h := oscRun_spec (p : ℝ) n
  unfold oscSamples OscState.next
  rw [h.1]
  rfl

/-- Claim C5: on a list of non-empty chords the pattern expander emits,
for each chord in input order, exactly the six events (600, chord),
(300, [root]), (300, chord), (600, [root]), (300, chord),
(300, [root + 7]) with root the first pitch of the chord, and emits
nothing else. -/
theorem claim_C5_comp_pattern (cs : List (List ℤ)) (h : ∀ c ∈ cs, c ≠ []) :
    comp_pattern_generator cs = cs.flatMap fun c =>
      [(600, c), (300, [c.headI]), (300, c),
       (600, [c.headI]), (300, c), (300, [c.headI + 7])] := by
  induction cs with
  | nil => rfl
  | cons c rest ih =>
    rcases List.exists_cons_of_ne_nil (h c (by simp)) with ⟨a, as, rfl⟩
    have hrest : ∀ x ∈ rest, x ≠ [] := fun x hx => h x (by simp [hx])
    simp only [comp_pattern_generator, List.flatMap_cons] at ih ⊢
    rw [ih hrest]
    simp

/-- Witness for claim C5 at the concrete Cmaj7 chord. -/
theorem claim_C5_witness :
    comp_pattern_generator [[36, 48, 52, 55, 59]] =
      [(600, [36, 48, 52, 55, 59]), (300, ([36] : List ℤ)),
       (300, [36, 48, 52, 55, 59]), (600, [36]),
       (300, [36, 48, 52, 55, 59]), (300, [43])] := by
  rw [claim_C5_comp_pattern [[36, 48, 52, 55, 59]] (by decide)]
  rfl

lemma voice_generator_from_fst (evs : List (ℕ × List ℤ)) (t : ℕ) :
    (voice_generator_from t evs).map Prod.fst =
      (List.range evs.length).map fun i => t + ((evs.take i).map Prod.fst).sum := by
  induction evs generalizing t with
  | nil => rfl
  | cons ev rest ih =>
    rw [voice_generator_from, List.map_cons, List.length_cons,
      List.range_succ_eq_map, List.map_cons, List.map_map]
    refine List.cons_eq_cons.mpr ⟨by simp, ?_⟩
    rw [ih (t + ev.1)]
    refine List.map_congr_left fun i _ => ?_
    simp only [Function.comp_apply, Nat.succ_eq_add_one, List.take_succ_cons,
      List.map_cons, List.sum_cons]
    omega

lemma voice_generator_from_snd (evs : List (ℕ × List ℤ)) (t : ℕ) :
    (voice_generator_from t evs).map Prod.snd =
      evs.map fun ev => ev.2.map fun pitch => Voice.init pitch ev.1 := by
  induction evs generalizing t with
  | nil => rfl
  | cons ev rest ih => simp [voice_generator_from, ih]

lemma voice_generator_from_chain (evs : List (ℕ × List ℤ)) :
    ∀ t u : ℕ, u ≤ t →
      List.Chain (· ≤ ·) u ((voice_generator_from t evs).map Prod.fst) := by
  induction evs with
  | nil => intro t u _; exact List.Chain.nil
  | cons ev rest ih =>
    intro t u hu
    rw [voice_generator_from, List.map_cons]
    exact List.Chain.cons hu (ih (t + ev.1) t (Nat.le_add_right t ev.1))

/-- Claim C4: the scheduler assigns each event the running sum of all
strictly earlier durations (starting at 0) as its start time, creates
one Voice per pitch of the event all sharing the event duration, and
emits groups in non-decreasing start-time order; for the single-chord
progression Cmaj7 it emits exactly 6 voice-groups with start times
0, 600, 900, 1200, 1800, 2100, the 6 event durations summing to 2400. -/
theorem claim_C4_voice_generator :
    (∀ evs : List (ℕ × List ℤ),
        (voice_generator evs).map Prod.fst =
          (List.range evs.length).map (fun i => ((evs.take i).map Prod.fst).sum) ∧
        (voice_generator evs).map Prod.snd =
          evs.map (fun ev => ev.2.map fun pitch => Voice.init pitch ev.1) ∧
        List.Chain' (· ≤ ·) ((voice_generator evs).map Prod.fst)) ∧
    (voice_generator (comp_pattern_generator (chord_generator (["Cmaj7"])))).map
        Prod.fst = [0, 600, 900, 1200, 1800, 2100] ∧
    ((comp_pattern_generator (chord_generator (["Cmaj7"]))).map Prod.fst).sum = 2400 ∧
    (comp_pattern_generator (chord_generator (["Cmaj7"]))).length = 6 := by
  refine ⟨fun evs => ⟨?_, voice_generator_from_snd evs 0, ?_⟩, ?_, rfl, rfl⟩
  · rw [voice_generator, voice_generator_from_fst evs 0]
    exact List.map_congr_left fun i _ => by omega
  · cases h : (voice_generator evs).map Prod.fst with
    | nil => exact List.chain'_nil
    | cons a l =>
      cases evs with
      | nil => simp [voice_generator, voice_generator_from] at h
      | cons ev rest =>
        rw [voice_generator, voice_generator_from, List.map_cons] at h
        obtain ⟨rfl, rfl⟩ := List.cons_eq_cons.mp h
        exact voice_generator_from_chain rest (0 + ev.1) 0 (Nat.zero_le _)
  · rfl

/-! Unfolding lemmas for the envelope and voice step functions. -/

lemma adsr_next_released {e : ADSREnvelope} (h : e.released = true) :
    e.next = if e.level + e.release * (1 - 1 / envRatio - e.level) < 0 then none
      else some (e.level + e.release * (1 - 1 / envRatio - e.level),
        { e with level := e.level + e.release * (1 - 1 / envRatio - e.level) }) := by
  simp only [ADSREnvelope.next, h, if_true]

lemma adsr_next_attack {e : ADSREnvelope} (h : e.released = false)
    (ha : e.attacking = true) :
    e.next = if 1 < e.level + e.attack * (1 / envRatio - e.level)
      then some (1, { e with level := 1, attacking := false })
      else some (e.level + e.attack * (1 / envRatio - e.level),
        { e with level := e.level + e.attack * (1 / envRatio - e.level) }) := by
  simp only [ADSREnvelope.next, h, ha, Bool.false_eq_true, if_false, if_true]

lemma adsr_next_decay {e : ADSREnvelope} (h : e.released = false)
    (ha : e.attacking = false) :
    e.next = some (e.level + e.decay * (e.sustain - e.level),
      { e with level := e.level + e.decay * (e.sustain - e.level) }) := by
  simp only [ADSREnvelope.next, h, ha, Bool.false_eq_true, if_false]

lemma adsr_next_not_released {e : ADSREnvelope} (h : e.released = false) :
    ∃ l e', e.next = some (l, e') ∧ e'.released = false ∧ e'.attack = e.attack ∧
      e'.decay = e.decay ∧ e'.sustain = e.sustain ∧ e'.release = e.release := by
  by_cases ha : e.attacking = true
  · rw [adsr_next_attack h ha]
    by_cases hc : 1 < e.level + e.attack * (1 / envRatio - e.level)
    · rw [if_pos hc]
      exact ⟨1, _, rfl, h, rfl, rfl, rfl, rfl⟩
    · rw [if_neg hc]
      exact ⟨_, _, rfl, h, rfl, rfl, rfl, rfl⟩
  · have ha' : e.attacking = false := by
      revert ha; cases e.attacking <;> simp
    rw [adsr_next_decay h ha']
    exact ⟨_, _, rfl, h, rfl, rfl, rfl, rfl⟩

lemma voice_next_no_trigger {v : Voice} (h : ¬ v.length ≤ v.t) :
    v.next = (v.adsr.next).map fun p =>
      (p.1 * (v.osc.next).1,
        { v with t := v.t + 1, adsr := p.2, osc := (v.osc.next).2 }) := by
  unfold Voice.next
  rw [if_neg h]
  show (match v.adsr.next with
    | none => none
    | some (l, a) =>
      some (l * (v.osc.next).1,
        { v with t := v.t + 1, adsr := a, osc := (v.osc.next).2 })) = _
  cases v.adsr.next with
  | none => rfl
  | some p => rfl

lemma voice_next_trigger {v : Voice} (h : v.length ≤ v.t) :
    v.next = ((v.adsr.trigger_release).next).map fun p =>
      (p.1 * (v.osc.next).1,
        { v with released := true, t := v.t + 1, adsr := p.2, osc := (v.osc.next).2 }) := by
  unfold Voice.next
  rw [if_pos h]
  show (match (v.adsr.trigger_release).next with
    | none => none
    | some (l, a) =>
      some (l * (v.osc.next).1,
        { v with released := true, t := v.t + 1, adsr := a, osc := (v.osc.next).2 })) = _
  cases (v.adsr.trigger_release).next with
  | none => rfl
  | some p => rfl

lemma voice_steps_add (v : Voice) (a b : ℕ) :
    Voice.steps v (a + b) = (Voice.steps v a).bind fun w => Voice.steps w b := by
  induction b with
  | zero =>
    rw [Nat.add_zero]
    cases h : Voice.steps v a <;> rfl
  | succ b ih =>
    show Voice.steps v (a + b + 1) = _
    rw [Voice.steps, ih]
    cases Voice.steps v a with
    | none => rfl
    | some w => rfl

lemma voice_steps_none_mono {v : Voice} {a : ℕ} (h : Voice.steps v a = none)
    {b : ℕ} (hab : a ≤ b) : Voice.steps v b = none := by
  obtain ⟨c, rfl⟩ := Nat.exists_eq_add_of_le hab
  rw [voice_steps_add, h]
  rfl

lemma voice_next_fields {v : Voice} {x : ℝ} {w : Voice} (h : v.next = some (x, w)) :
    w.t = v.t + 1 ∧ w.length = v.length ∧ w.note = v.note := by
  by_cases hc : v.length ≤ v.t
  · rw [voice_next_trigger hc] at h
    cases hu : (v.adsr.trigger_release).next with
    | none => rw [hu] at h; cases h
    | some q =>
      obtain ⟨l, a⟩ := q
      rw [hu] at h
      simp only [Option.map_some', Option.some.injEq, Prod.mk.injEq] at h
      rw [← h.2]
      exact ⟨rfl, rfl, rfl⟩
  · rw [voice_next_no_trigger hc] at h
    cases hu : v.adsr.next with
    | none => rw [hu] at h; cases h
    | some q =>
      obtain ⟨l, a⟩ := q
      rw [hu] at h
      simp only [Option.map_some', Option.some.injEq, Prod.mk.injEq] at h
      rw [← h.2]
      exact ⟨rfl, rfl, rfl⟩

lemma voice_steps_fields {v : Voice} {n : ℕ} {w : Voice}
    (h : Voice.steps v n = some w) :
    w.t = v.t + n ∧ w.length = v.length ∧ w.note = v.note := by
  induction n generalizing w with
  | zero =>
    cases h
    exact ⟨rfl, rfl, rfl⟩
  | succ n ih =>
    rw [Voice.steps] at h
    cases hs : Voice.steps v n with
    | none => rw [hs] at h; cases h
    | some u =>
      rw [hs] at h
      simp only [Option.some_bind] at h
      cases hu : u.next with
      | none => rw [hu] at h; cases h
      | some q =>
        obtain ⟨x, w'⟩ := q
        rw [hu] at h
        simp only [Option.map_some', Option.some.injEq] at h
        subst h
        obtain ⟨ht, hl, hn⟩ := ih hs
        obtain ⟨ht', hl', hn'⟩ := voice_next_fields hu
        refine ⟨?_, ?_, ?_⟩
        · rw [ht', ht]; omega
        · rw [hl', hl]
        · rw [hn', hn]

lemma voice_init_steps_until (note : ℤ) (L : ℕ) :
    ∀ j, j ≤ L → ∃ w, Voice.steps (Voice.init note L) j = some w ∧
      w.length = L ∧ w.t = j ∧ w.adsr.released = false := by
  intro j
  induction j with
  | zero => exact fun _ => ⟨Voice.init note L, rfl, rfl, rfl, rfl⟩
  | succ j ih =>
    intro hj
    obtain ⟨w, hw, hl, ht, hr⟩ := ih (Nat.le_of_succ_le hj)
    have hlt : ¬ w.length ≤ w.t := by omega
    obtain ⟨l, e', he, hrel', -, -, -, -⟩ := adsr_next_not_released hr
    have hstep : Voice.steps (Voice.init note L) (j + 1) = (w.next).map Prod.snd := by
      rw [Voice.steps, hw]
      rfl
    rw [hstep, voice_next_no_trigger hlt, he]
    simp only [Option.map_some']
    refine ⟨_, rfl, hl, ?_, hrel'⟩
    show w.t + 1 = j + 1
    omega

/-- Claim C1 counterexample: for the concrete voice Voice(69, 1) (planned
duration 1), the first sample request does not trigger release -- the
source checks t against the length before incrementing t, so at the L-th
request t is still L-1.  The claim asserts release fires on the L-th
request; it actually fires on request L+1. -/
theorem claim_C1_counterexample :
    triggersDuringRequest (Voice.init 69 1) 1 = false := rfl

/-- Claim C1 (amended): for every voice, release is triggered on the
(L+1)-th sample request (ordinals from 1) and on no earlier request:
requests 1..L find t < L and do not trigger, request L+1 finds t = L and
triggers. -/
theorem claim_C1_release_request (note : ℤ) (L : ℕ) :
    (∀ k, 1 ≤ k → k ≤ L → triggersDuringRequest (Voice.init note L) k = false) ∧
    triggersDuringRequest (Voice.init note L) (L + 1) = true := by
  constructor
  · intro k h1 hk
    obtain ⟨w, hw, hl, ht, -⟩ := voice_init_steps_until note L (k - 1) (by omega)
    unfold triggersDuringRequest
    rw [hw]
    show w.triggersReleaseNow = false
    unfold Voice.triggersReleaseNow
    rw [hl, ht]
    simp only [decide_eq_false_iff_not]
    omega
  · obtain ⟨w, hw, hl, ht, -⟩ := voice_init_steps_until note L L le_rfl
    unfold triggersDuringRequest
    rw [Nat.add_sub_cancel, hw]
    show w.triggersReleaseNow = true
    unfold Voice.triggersReleaseNow
    rw [hl, ht]
    simp

/-- Witness for the amended claim C1 at the concrete voice Voice(69, 2). -/
theorem claim_C1_witness :
    triggersDuringRequest (Voice.init 69 2) 1 = false ∧
      triggersDuringRequest (Voice.init 69 2) 3 = true :=
  ⟨(claim_C1_release_request 69 2).1 1 (by decide) (by decide),
    (claim_C1_release_request 69 2).2⟩

lemma voice69_step1 :
    ∃ w, Voice.steps (Voice.init 69 1) 1 = some w ∧ w.length = 1 ∧ w.t = 1 ∧
      w.adsr.released = false ∧
      w.adsr.level = 0 + compute_coefficient 0.1 * (1 / envRatio - 0) ∧
      w.adsr.release = compute_coefficient 3 := by
  have hng : ¬ (Voice.init 69 1).length ≤ (Voice.init 69 1).t := Nat.not_succ_le_zero 0
  have hrel : (Voice.init 69 1).adsr.released = false := rfl
  have hatt : (Voice.init 69 1).adsr.attacking = true := rfl
  have hl0 : (Voice.init 69 1).adsr.level = 0 := rfl
  have ha0 : (Voice.init 69 1).adsr.attack = compute_coefficient 0.1 := rfl
  have hbound : ¬ 1 < (Voice.init 69 1).adsr.level + (Voice.init 69 1).adsr.attack *
      (1 / envRatio - (Voice.init 69 1).adsr.level) := by
    rw [hl0, ha0]
    have hA2 : compute_coefficient 0.1 * (1 / envRatio) ≤ 1 / 4410 * 2 :=
      mul_le_mul cA_le inv_envRatio_le_two inv_envRatio_pos.le (by norm_num)
    intro hcon
    nlinarith [hA2]
  have hstep : Voice.steps (Voice.init 69 1) 1 =
      ((Voice.init 69 1).next).map Prod.snd := rfl
  rw [hstep, voice_next_no_trigger hng, adsr_next_attack hrel hatt, if_neg hbound]
  simp only [Option.map_some']
  exact ⟨_, rfl, rfl, rfl, rfl, rfl, rfl⟩

lemma voice69_step2 :
    ∃ w, Voice.steps (Voice.init 69 1) 2 = some w ∧ w.length = 1 ∧ w.t = 2 := by
  obtain ⟨w, h1, hl, ht, hrel, hlev, hrelc⟩ := voice69_step1
  have hstep : Voice.steps (Voice.init 69 1) 2 =
      (Voice.steps (Voice.init 69 1) 1).bind fun u => (u.next).map Prod.snd := rfl
  rw [hstep, h1]
  simp only [Option.some_bind]
  have htrig : w.length ≤ w.t := by omega
  have hbound2 : ¬ ((w.adsr.trigger_release).level + (w.adsr.trigger_release).release *
      (1 - 1 / envRatio - (w.adsr.trigger_release).level) < 0) := by
    have hLt : (w.adsr.trigger_release).level = w.adsr.level := rfl
    have hRt : (w.adsr.trigger_release).release = w.adsr.release := rfl
    rw [hLt, hRt, hlev, hrelc]
    have he : (0 : ℝ) + compute_coefficient 0.1 * (1 / envRatio - 0) =
        compute_coefficient 0.1 * (1 / envRatio) := by ring
    rw [he]
    have hA1 : (1 : ℝ) / 4411 ≤ compute_coefficient 0.1 * (1 / envRatio) := by
      have h := mul_le_mul cA_ge (le_of_lt one_lt_inv_envRatio) zero_le_one cA_pos.le
      linarith [h]
    have hA2 : compute_coefficient 0.1 * (1 / envRatio) ≤ 1 / 4410 * 2 :=
      mul_le_mul cA_le inv_envRatio_le_two inv_envRatio_pos.le (by norm_num)
    have hT2 := releaseTarget_ge_neg_one
    have hcR1 := cR_pos
    have hcR2 := cR_le
    have hd : -1 - 2 / 4410 ≤ (1 - 1 / envRatio) -
        compute_coefficient 0.1 * (1 / envRatio) := by
      linarith
    have h5 : compute_coefficient 3 * (-1 - 2 / 4410) ≤ compute_coefficient 3 *
        ((1 - 1 / envRatio) - compute_coefficient 0.1 * (1 / envRatio)) :=
      mul_le_mul_of_nonneg_left hd hcR1.le
    have h6 : (1 / 132300 : ℝ) * (-1 - 2 / 4410) ≤
        compute_coefficient 3 * (-1 - 2 / 4410) :=
      mul_le_mul_of_nonpos_right hcR2 (by norm_num)
    have h7 : (0 : ℝ) ≤ 1 / 4411 + 1 / 132300 * (-1 - 2 / 4410) := by norm_num
    intro hcon
    nlinarith [hA1, h5, h6, h7]
  rw [voice_next_trigger htrig, adsr_next_released rfl, if_neg hbound2]
  simp only [Option.map_some']
  refine ⟨_, rfl, hl, ?_⟩
  show w.t + 1 = 2
  omega

/-- Claim C9 counterexample: for the concrete voice Voice(69, 1),
trigger_release is invoked on the second sample request AND again on the
third request (the voice is still alive then, because one release update
leaves the level non-negative), so the trigger operation is not invoked
exactly once over the voice's lifetime. -/
theorem claim_C9_counterexample :
    triggersDuringRequest (Voice.init 69 1) 2 = true ∧
      triggersDuringRequest (Voice.init 69 1) 3 = true := by
  obtain ⟨w1, h1, hl1, ht1, -, -, -⟩ := voice69_step1
  obtain ⟨w2, h2, hl2, ht2⟩ := voice69_step2
  constructor
  · unfold triggersDuringRequest
    rw [show (2 : ℕ) - 1 = 1 from rfl, h1]
    show w1.triggersReleaseNow = true
    unfold Voice.triggersReleaseNow
    rw [hl1, ht1]
    simp
  · unfold triggersDuringRequest
    rw [show (3 : ℕ) - 1 = 2 from rfl, h2]
    show w2.triggersReleaseNow = true
    unfold Voice.triggersReleaseNow
    rw [hl2, ht2]
    simp

/-- Claim C9 (amended): trigger_release is never invoked before the
elapsed tick count reaches the planned duration L, but it is invoked on
every request of the voice's remaining lifetime from the (L+1)-th on
(so, in general, more than once; the call is idempotent and therefore
harmless): a request served from the state reached after j previous
requests invokes trigger_release iff L ≤ j, and trigger_release is
idempotent. -/
theorem claim_C9_release_invocations (note : ℤ) (L : ℕ) :
    (∀ j w, Voice.steps (Voice.init note L) j = some w →
        (w.triggersReleaseNow = true ↔ L ≤ j)) ∧
    ∀ e : ADSREnvelope, e.trigger_release.trigger_release = e.trigger_release := by
  constructor
  · intro j w h
    obtain ⟨ht, hl, -⟩ := voice_steps_fields h
    unfold Voice.triggersReleaseNow
    rw [hl, ht, show (Voice.init note L).length = L from rfl,
      show (Voice.init note L).t = 0 from rfl]
    simp only [decide_eq_true_eq]
    omega
  · intro e
    rfl

/-- Witness for the amended claim C9 at the concrete voice Voice(69, 1)
after zero requests. -/
theorem claim_C9_witness :
    ((Voice.init 69 1).triggersReleaseNow = true ↔ 1 ≤ 0) ∧
      (ADSREnvelope.init 0.1 1 0.7 3).trigger_release.trigger_release =
        (ADSREnvelope.init 0.1 1 0.7 3).trigger_release :=
  ⟨(claim_C9_release_invocations 69 1).1 0 (Voice.init 69 1) rfl,
    (claim_C9_release_invocations 69 1).2 (ADSREnvelope.init 0.1 1 0.7 3)⟩

lemma adsr_run_add (e : ADSREnvelope) (a b : ℕ) :
    e.run (a + b) = (e.run a).bind fun w => w.run b := by
  induction b with
  | zero =>
    rw [Nat.add_zero]
    cases h : e.run a <;> rfl
  | succ b ih =>
    show e.run (a + b + 1) = _
    rw [ADSREnvelope.run, ih]
    cases e.run a with
    | none => rfl
    | some w => rfl

/-- Attack-phase progress: while the envelope is attacking with level in
the unit interval, each non-clamping update gains at least
attack * (1/envRatio - 1), so some finite number of updates reaches the
clamp, which sets the level to exactly 1 and ends the attack phase. -/
lemma attack_reaches_one :
    ∀ (k : ℕ) (e : ADSREnvelope), 0 < e.attack → e.released = false →
      e.attacking = true → 0 ≤ e.level → e.level ≤ 1 →
      1 - e.level ≤ k * (e.attack * (1 / envRatio - 1)) →
      ∃ n e', e.run n = some e' ∧ e'.attacking = false ∧ e'.level = 1 ∧
        e'.released = false := by
  intro k
  induction k with
  | zero =>
    intro e hcA hrel hatt h0 h1 hk
    have hlvl : e.level = 1 := by
      push_cast at hk
      linarith
    have hIR := one_lt_inv_envRatio
    have hgt : 1 < e.level + e.attack * (1 / envRatio - e.level) := by
      rw [hlvl]
      nlinarith
    refine ⟨1, { e with level := 1, attacking := false }, ?_, rfl, rfl, hrel⟩
    have hrun : e.run 1 = e.next.map Prod.snd := rfl
    rw [hrun, adsr_next_attack hrel hatt, if_pos hgt]
    rfl
  | succ k ih =>
    intro e hcA hrel hatt h0 h1 hk
    by_cases hgt : 1 < e.level + e.attack * (1 / envRatio - e.level)
    · refine ⟨1, { e with level := 1, attacking := false }, ?_, rfl, rfl, hrel⟩
      have hrun : e.run 1 = e.next.map Prod.snd := rfl
      rw [hrun, adsr_next_attack hrel hatt, if_pos hgt]
      rfl
    · have hIR := one_lt_inv_envRatio
      have step_eq : e.next = some (e.level + e.attack * (1 / envRatio - e.level),
          { e with level := e.level + e.attack * (1 / envRatio - e.level) }) := by
        rw [adsr_next_attack hrel hatt, if_neg hgt]
      have h2le : e.level + e.attack * (1 / envRatio - e.level) ≤ 1 := le_of_not_lt hgt
      have h2gain : e.level + e.attack * (1 / envRatio - 1) ≤
          e.level + e.attack * (1 / envRatio - e.level) := by
        nlinarith
      have h2ge0 : 0 ≤ e.level + e.attack * (1 / envRatio - e.level) := by
        nlinarith
      obtain ⟨n, e', hrun, hfa, hfl, hfr⟩ :=
        ih { e with level := e.level + e.attack * (1 / envRatio - e.level) }
          hcA hrel hatt h2ge0 h2le (by push_cast at hk ⊢; nlinarith)
      refine ⟨n + 1, e', ?_, hfa, hfl, hfr⟩
      have hfront : e.run (n + 1) =
          ({ e with level := e.level + e.attack * (1 / envRatio - e.level) } :
            ADSREnvelope).run n := by
        rw [show n + 1 = 1 + n by omega, adsr_run_add]
        have h1run : e.run 1 = e.next.map Prod.snd := rfl
        rw [h1run, step_eq]
        rfl
      rw [hfront]
      exact hrun

/-- Claim C2: for an envelope whose coefficients come from positive
attack, decay and release times and whose sustain level lies in (0,1):
during Attack every update keeps the produced level between the old
level and 1 (monotonically non-decreasing), and after finitely many
updates the overshoot clamp sets the level to exactly 1 and ends the
attack phase; in Decay/Sustain each update moves the level monotonically
toward the sustain level from above without ever exceeding 1 (the gap to
sustain shrinks by the factor 1 - decay); once release has been
triggered every update strictly decreases the level; and the envelope
becomes Finished (raises StopIteration) exactly at the first update
whose post-update level is negative. -/
theorem claim_C2_envelope (a d s r : ℝ) (ha : 0 < a) (hd : 0 < d) (hr : 0 < r)
    (hs0 : 0 < s) (hs1 : s < 1) :
    (∀ e : ADSREnvelope, e.attack = compute_coefficient a → e.released = false →
        e.attacking = true → 0 ≤ e.level → e.level ≤ 1 →
        ∃ l e', e.next = some (l, e') ∧ e.level ≤ l ∧ l ≤ 1) ∧
    (∀ e : ADSREnvelope, e.attack = compute_coefficient a → e.released = false →
        e.attacking = true → 0 ≤ e.level → e.level ≤ 1 →
        ∃ n e', e.run n = some e' ∧ e'.attacking = false ∧ e'.level = 1 ∧
          e'.released = false) ∧
    (∀ e : ADSREnvelope, e.decay = compute_coefficient d → e.sustain = s →
        e.released = false → e.attacking = false → e.sustain ≤ e.level →
        e.level ≤ 1 →
        ∃ e', e.next = some (e.level + e.decay * (e.sustain - e.level), e') ∧
          e.sustain ≤ e'.level ∧ e'.level ≤ e.level ∧
          e'.level - e.sustain = (1 - e.decay) * (e.level - e.sustain)) ∧
    (∀ e : ADSREnvelope, e.release = compute_coefficient r → e.released = true →
        0 ≤ e.level →
        e.level + e.release * (1 - 1 / envRatio - e.level) < e.level ∧
        (e.next = none ↔
          e.level + e.release * (1 - 1 / envRatio - e.level) < 0) ∧
        (0 ≤ e.level + e.release * (1 - 1 / envRatio - e.level) →
          e.next = some (e.level + e.release * (1 - 1 / envRatio - e.level),
            { e with level := e.level + e.release * (1 - 1 / envRatio - e.level) }))) := by
  refine ⟨?_, ?_, ?_, ?_⟩
  · intro e hA hrel hatt h0 h1
    have hcA : 0 < e.attack := hA ▸ compute_coefficient_pos ha
    have hIR := one_lt_inv_envRatio
    by_cases hgt : 1 < e.level + e.attack * (1 / envRatio - e.level)
    · refine ⟨1, { e with level := 1, attacking := false }, ?_, h1, le_rfl⟩
      rw [adsr_next_attack hrel hatt, if_pos hgt]
    · refine ⟨e.level + e.attack * (1 / envRatio - e.level),
        { e with level := e.level + e.attack * (1 / envRatio - e.level) },
        ?_, ?_, le_of_not_lt hgt⟩
      · rw [adsr_next_attack hrel hatt, if_neg hgt]
      · nlinarith
  · intro e hA hrel hatt h0 h1
    have hcA : 0 < e.attack := hA ▸ compute_coefficient_pos ha
    have hIR := one_lt_inv_envRatio
    have hε : 0 < e.attack * (1 / envRatio - 1) := by nlinarith
    obtain ⟨k, hk⟩ := exists_nat_ge ((1 - e.level) / (e.attack * (1 / envRatio - 1)))
    refine attack_reaches_one k e hcA hrel hatt h0 h1 ?_
    rw [div_le_iff₀ hε] at hk
    linarith
  · intro e hD hS hrel hatt hs hl1
    have hcD0 : 0 < e.decay := hD ▸ compute_coefficient_pos hd
    have hcD1 : e.decay < 1 := hD ▸ compute_coefficient_lt_one d
    refine ⟨{ e with level := e.level + e.decay * (e.sustain - e.level) },
      by rw [adsr_next_decay hrel hatt], ?_, ?_, by ring⟩
    · show e.sustain ≤ e.level + e.decay * (e.sustain - e.level)
      nlinarith
    · show e.level + e.decay * (e.sustain - e.level) ≤ e.level
      nlinarith
  · intro e hR hrel h0
    have hcR0 : 0 < e.release := hR ▸ compute_coefficient_pos hr
    have hT := releaseTarget_neg
    refine ⟨by nlinarith, ?_, fun hge => ?_⟩
    · rw [adsr_next_released hrel]
      by_cases hc : e.level + e.release * (1 - 1 / envRatio - e.level) < 0
      · simp [hc]
      · simp [hc]
    · rw [adsr_next_released hrel, if_neg (not_lt.mpr hge)]

/-- Witness for claim C2: the release conjunct applied to the concrete
released envelope with coefficients from times 1, 1, 1, sustain 1/2 and
level 1/2. -/
theorem claim_C2_witness :
    (1 : ℝ) / 2 + compute_coefficient 1 * (1 - 1 / envRatio - 1 / 2) < 1 / 2 ∧
    ((⟨false, true, 1 / 2, compute_coefficient 1, compute_coefficient 1, 1 / 2,
        compute_coefficient 1⟩ : ADSREnvelope).next = none ↔
      (1 : ℝ) / 2 + compute_coefficient 1 * (1 - 1 / envRatio - 1 / 2) < 0) ∧
    (0 ≤ (1 : ℝ) / 2 + compute_coefficient 1 * (1 - 1 / envRatio - 1 / 2) →
      (⟨false, true, 1 / 2, compute_coefficient 1, compute_coefficient 1, 1 / 2,
          compute_coefficient 1⟩ : ADSREnvelope).next =
        some ((1 : ℝ) / 2 + compute_coefficient 1 * (1 - 1 / envRatio - 1 / 2),
          ⟨false, true, 1 / 2 + compute_coefficient 1 * (1 - 1 / envRatio - 1 / 2),
            compute_coefficient 1, compute_coefficient 1, 1 / 2,
            compute_coefficient 1⟩)) :=
  (claim_C2_envelope 1 1 (1 / 2) 1 one_pos one_pos one_pos one_half_pos
      one_half_lt_one).2.2.2
    ⟨false, true, 1 / 2, compute_coefficient 1, compute_coefficient 1, 1 / 2,
      compute_coefficient 1⟩
    rfl rfl one_half_pos.le

/-! Mixing-pass lemmas. -/

lemma pollVoices_snd (l : List Voice) :
    (pollVoices l).2 = l.filterMap fun v => (v.next).map Prod.snd := by
  induction l with
  | nil => rfl
  | cons v rest ih =>
    cases hv : v.next with
    | none =>
      simp only [pollVoices, hv, List.filterMap_cons, Option.map_none', ih]
    | some q =>
      obtain ⟨x, w⟩ := q
      simp only [pollVoices, hv, List.filterMap_cons, Option.map_some', ih]

lemma pollVoices_fst (l : List Voice) :
    (pollVoices l).1 = (l.filterMap fun v => (v.next).map Prod.fst).sum := by
  induction l with
  | nil => rfl
  | cons v rest ih =>
    cases hv : v.next with
    | none =>
      simp only [pollVoices, hv, List.filterMap_cons, Option.map_none', ih]
    | some q =>
      obtain ⟨x, w⟩ := q
      simp only [pollVoices, hv, List.filterMap_cons, Option.map_some',
        List.sum_cons, ih]

/-! Invariant preservation for envelope and voice steps. -/

lemma EnvOK_trigger {e : ADSREnvelope} (h : EnvOK e) : EnvOK e.trigger_release := h

lemma EnvOK_level_nonneg {e : ADSREnvelope} (h : EnvOK e) : 0 ≤ e.level :=
  h.2.2.2.2.1

lemma EnvOK_level_le {e : ADSREnvelope} (h : EnvOK e) : e.level ≤ 1 / envRatio :=
  h.2.2.2.2.2

lemma EnvOK_next {e : ADSREnvelope} (h : EnvOK e) {l : ℝ} {e' : ADSREnvelope}
    (hs : e.next = some (l, e')) : EnvOK e' ∧ e'.released = e.released := by
  obtain ⟨hA, hD, hS, hR, h0, h1⟩ := h
  have hIR := one_lt_inv_envRatio
  by_cases hrel : e.released = true
  · rw [adsr_next_released hrel] at hs
    by_cases hc : e.level + e.release * (1 - 1 / envRatio - e.level) < 0
    · rw [if_pos hc] at hs; cases hs
    · rw [if_neg hc] at hs
      obtain ⟨-, rfl⟩ := Prod.mk.injEq _ _ _ _ ▸ Option.some.inj hs
      have hcR0 : 0 < e.release := hR ▸ cR_pos
      have hcR1 : e.release < 1 := hR ▸ cR_lt_one
      have hT := releaseTarget_neg
      refine ⟨⟨hA, hD, hS, hR, by linarith [not_lt.mp hc], ?_⟩, rfl⟩
      show e.level + e.release * (1 - 1 / envRatio - e.level) ≤ 1 / envRatio
      nlinarith
  · have hrel' : e.released = false := by
      revert hrel; cases e.released <;> simp
    by_cases hatt : e.attacking = true
    · rw [adsr_next_attack hrel' hatt] at hs
      by_cases hc : 1 < e.level + e.attack * (1 / envRatio - e.level)
      · rw [if_pos hc] at hs
        obtain ⟨-, rfl⟩ := Prod.mk.injEq _ _ _ _ ▸ Option.some.inj hs
        exact ⟨⟨hA, hD, hS, hR, zero_le_one, hIR.le⟩, rfl⟩
      · rw [if_neg hc] at hs
        obtain ⟨-, rfl⟩ := Prod.mk.injEq _ _ _ _ ▸ Option.some.inj hs
        have hcA0 : 0 < e.attack := hA ▸ cA_pos
        have hcA1 : e.attack < 1 := hA ▸ cA_lt_one
        refine ⟨⟨hA, hD, hS, hR, ?_, ?_⟩, rfl⟩
        · show 0 ≤ e.level + e.attack * (1 / envRatio - e.level)
          nlinarith
        · show e.level + e.attack * (1 / envRatio - e.level) ≤ 1 / envRatio
          nlinarith
    · have hatt' : e.attacking = false := by
        revert hatt; cases e.attacking <;> simp
      rw [adsr_next_decay hrel' hatt'] at hs
      obtain ⟨-, rfl⟩ := Prod.mk.injEq _ _ _ _ ▸ Option.some.inj hs
      have hcD0 : 0 < e.decay := hD ▸ cD_pos
      have hcD1 : e.decay < 1 := hD ▸ cD_lt_one
      have hS07 : e.sustain = 0.7 := hS
      refine ⟨⟨hA, hD, hS, hR, ?_, ?_⟩, rfl⟩
      · show 0 ≤ e.level + e.decay * (e.sustain - e.level)
        rw [hS07]
        nlinarith
      · show e.level + e.decay * (e.sustain - e.level) ≤ 1 / envRatio
        rw [hS07]
        nlinarith

lemma VoiceOK_next {v : Voice} (h : VoiceOK v) {x : ℝ} {w : Voice}
    (hs : v.next = some (x, w)) : VoiceOK w := by
  by_cases hc : v.length ≤ v.t
  · rw [voice_next_trigger hc] at hs
    cases hu : (v.adsr.trigger_release).next with
    | none => rw [hu] at hs; cases hs
    | some q =>
      obtain ⟨l, a⟩ := q
      rw [hu] at hs
      simp only [Option.map_some', Option.some.injEq, Prod.mk.injEq] at hs
      rw [← hs.2]
      exact (EnvOK_next (EnvOK_trigger h) hu).1
  · rw [voice_next_no_trigger hc] at hs
    cases hu : v.adsr.next with
    | none => rw [hu] at hs; cases hs
    | some q =>
      obtain ⟨l, a⟩ := q
      rw [hu] at hs
      simp only [Option.map_some', Option.some.injEq, Prod.mk.injEq] at hs
      rw [← hs.2]
      exact (EnvOK_next h hu).1

lemma pollVoices_OK {pool : List Voice} (h : ∀ v ∈ pool, VoiceOK v) :
    ∀ w ∈ (pollVoices pool).2, VoiceOK w := by
  intro w hw
  rw [pollVoices_snd] at hw
  obtain ⟨u, hu, hmap⟩ := List.mem_filterMap.mp hw
  obtain ⟨p, hp, hpw⟩ := Option.map_eq_some'.mp hmap
  obtain ⟨x, w'⟩ := p
  cases hpw
  exact VoiceOK_next (h u hu) hp

/-! Every well-formed voice exhausts after finitely many requests: once
released, the level decays geometrically toward the negative release
target and must cross zero. -/

lemma voice_released_next {u : Voice} (hOK : VoiceOK u)
    (hrel : u.adsr.released = true) {x : ℝ} {w : Voice}
    (h : u.next = some (x, w)) :
    w.adsr.released = true ∧ VoiceOK w ∧
    w.adsr.level - (1 - 1 / envRatio) =
      (1 - compute_coefficient 3) * (u.adsr.level - (1 - 1 / envRatio)) := by
  have hR : u.adsr.release = compute_coefficient 3 := hOK.2.2.2.1
  by_cases hc : u.length ≤ u.t
  · rw [voice_next_trigger hc] at h
    have hrel2 : (u.adsr.trigger_release).released = true := rfl
    rw [adsr_next_released hrel2] at h
    by_cases hneg : (u.adsr.trigger_release).level + (u.adsr.trigger_release).release *
        (1 - 1 / envRatio - (u.adsr.trigger_release).level) < 0
    · rw [if_pos hneg] at h; cases h
    · rw [if_neg hneg] at h
      simp only [Option.map_some', Option.some.injEq, Prod.mk.injEq] at h
      rw [← h.2]
      refine ⟨rfl, ?_, ?_⟩
      · show EnvOK _
        have hE : EnvOK (u.adsr.trigger_release) := EnvOK_trigger hOK
        obtain ⟨hA, hD, hS, hRr, h0, h1⟩ := hE
        have hcR0 : 0 < (u.adsr.trigger_release).release := hRr ▸ cR_pos
        have hT := releaseTarget_neg
        refine ⟨hA, hD, hS, hRr, by linarith [not_lt.mp hneg], ?_⟩
        show (u.adsr.trigger_release).level + (u.adsr.trigger_release).release *
            (1 - 1 / envRatio - (u.adsr.trigger_release).level) ≤ 1 / envRatio
        nlinarith [h0, h1]
      · show (u.adsr.trigger_release).level + (u.adsr.trigger_release).release *
            (1 - 1 / envRatio - (u.adsr.trigger_release).level) - (1 - 1 / envRatio) = _
        have hL : (u.adsr.trigger_release).level = u.adsr.level := rfl
        have hRt : (u.adsr.trigger_release).release = u.adsr.release := rfl
        rw [hL, hRt, hR]
        ring
  · rw [voice_next_no_trigger hc] at h
    rw [adsr_next_released hrel] at h
    by_cases hneg : u.adsr.level + u.adsr.release *
        (1 - 1 / envRatio - u.adsr.level) < 0
    · rw [if_pos hneg] at h; cases h
    · rw [if_neg hneg] at h
      simp only [Option.map_some', Option.some.injEq, Prod.mk.injEq] at h
      rw [← h.2]
      refine ⟨hrel, ?_, ?_⟩
      · show EnvOK _
        obtain ⟨hA, hD, hS, hRr, h0, h1⟩ := hOK
        have hcR0 : 0 < u.adsr.release := hRr ▸ cR_pos
        have hT := releaseTarget_neg
        exact ⟨hA, hD, hS, hRr, by linarith [not_lt.mp hneg], by nlinarith [h0, h1]⟩
      · show u.adsr.level + u.adsr.release *
            (1 - 1 / envRatio - u.adsr.level) - (1 - 1 / envRatio) = _
        rw [hR]
        ring

lemma voice_released_trace {v : Voice} (hOK : VoiceOK v)
    (hrel : v.adsr.released = true) :
    ∀ (m : ℕ) (w : Voice), Voice.steps v m = some w →
      w.adsr.released = true ∧ VoiceOK w ∧
      w.adsr.level - (1 - 1 / envRatio) =
        (1 - compute_coefficient 3) ^ m * (v.adsr.level - (1 - 1 / envRatio)) := by
  intro m
  induction m with
  | zero =>
    intro w h
    cases h
    exact ⟨hrel, hOK, by rw [pow_zero, one_mul]⟩
  | succ m ih =>
    intro w h
    rw [Voice.steps] at h
    cases hs : Voice.steps v m with
    | none => rw [hs] at h; cases h
    | some u =>
      rw [hs] at h
      simp only [Option.some_bind] at h
      cases hu : u.next with
      | none => rw [hu] at h; cases h
      | some q =>
        obtain ⟨x, w'⟩ := q
        rw [hu] at h
        simp only [Option.map_some', Option.some.injEq] at h
        subst h
        obtain ⟨hrelu, hOKu, hformu⟩ := ih u hs
        obtain ⟨hrelw, hOKw, hformw⟩ := voice_released_next hOKu hrelu hu
        refine ⟨hrelw, hOKw, ?_⟩
        rw [hformw, hformu, pow_succ]
        ring

lemma voice_released_dies {v : Voice} (hOK : VoiceOK v)
    (hrel : v.adsr.released = true) : ∃ n, Voice.steps v n = none := by
  have hT := releaseTarget_neg
  have h0 := EnvOK_level_nonneg hOK
  have hgap : 0 < v.adsr.level - (1 - 1 / envRatio) := by linarith
  have hr1 : 1 - compute_coefficient 3 < 1 := by linarith [cR_pos]
  obtain ⟨n, hn⟩ := exists_pow_lt_of_lt_one
    (div_pos (show (0 : ℝ) < -(1 - 1 / envRatio) by linarith) hgap) hr1
  refine ⟨n, ?_⟩
  cases hs : Voice.steps v n with
  | none => rfl
  | some w =>
    obtain ⟨-, hOKw, hform⟩ := voice_released_trace hOK hrel n w hs
    have h1 : (1 - compute_coefficient 3) ^ n * (v.adsr.level - (1 - 1 / envRatio)) <
        -(1 - 1 / envRatio) := (lt_div_iff₀ hgap).mp hn
    have h2 := EnvOK_level_nonneg hOKw
    linarith [hform]

lemma voice_trigger_next {u : Voice} (hge : u.length ≤ u.t) (hOK : VoiceOK u)
    {x : ℝ} {w : Voice} (h : u.next = some (x, w)) :
    w.adsr.released = true ∧ VoiceOK w := by
  rw [voice_next_trigger hge] at h
  cases hu : (u.adsr.trigger_release).next with
  | none => rw [hu] at h; cases h
  | some q =>
    obtain ⟨l, a⟩ := q
    rw [hu] at h
    simp only [Option.map_some', Option.some.injEq, Prod.mk.injEq] at h
    rw [← h.2]
    obtain ⟨hOKa, hrela⟩ := EnvOK_next (EnvOK_trigger hOK) hu
    exact ⟨hrela.trans rfl, hOKa⟩

lemma voice_trigger_outcome {v : Voice} (hge : v.length ≤ v.t) (hOK : VoiceOK v) :
    (∃ n, Voice.steps v n = none) ∨
    (∃ n w, Voice.steps v n = some w ∧ w.adsr.released = true ∧ VoiceOK w) := by
  have hstep1 : Voice.steps v 1 = (v.next).map Prod.snd := rfl
  cases hnext : v.next with
  | none =>
    left
    exact ⟨1, by rw [hstep1, hnext]; rfl⟩
  | some q =>
    obtain ⟨x, w⟩ := q
    obtain ⟨hrelw, hOKw⟩ := voice_trigger_next hge hOK hnext
    right
    exact ⟨1, w, by rw [hstep1, hnext]; rfl, hrelw, hOKw⟩

lemma voice_reaches_release :
    ∀ (k : ℕ) (v : Voice), VoiceOK v → v.length - v.t ≤ k →
      (∃ n, Voice.steps v n = none) ∨
      (∃ n w, Voice.steps v n = some w ∧ w.adsr.released = true ∧ VoiceOK w) := by
  intro k
  induction k with
  | zero =>
    intro v hOK hk
    exact voice_trigger_outcome (by omega) hOK
  | succ k ih =>
    intro v hOK hk
    by_cases hge : v.length ≤ v.t
    · exact voice_trigger_outcome hge hOK
    · by_cases hrel : v.adsr.released = true
      · exact Or.inr ⟨0, v, rfl, hrel, hOK⟩
      · have hrel' : v.adsr.released = false := by
          revert hrel; cases v.adsr.released <;> simp
        obtain ⟨l, e', he, -, -, -, -, -⟩ := adsr_next_not_released hrel'
        have hnext : v.next = some (l * (v.osc.next).1, { v with t := v.t + 1, adsr := e', osc := (v.osc.next).2 }) := by
          rw [voice_next_no_trigger hge, he]
          rfl
        have hOKw : VoiceOK ({ v with t := v.t + 1, adsr := e', osc := (v.osc.next).2 } : Voice) :=
          VoiceOK_next hOK hnext
        have hstep1 : Voice.steps v 1 = (v.next).map Prod.snd := rfl
        have hsv : Voice.steps v 1 = some ({ v with t := v.t + 1, adsr := e', osc := (v.osc.next).2 } : Voice) := by
          rw [hstep1, hnext]
          rfl
        have hmeas : ({ v with t := v.t + 1, adsr := e', osc := (v.osc.next).2 } : Voice).length - ({ v with t := v.t + 1, adsr := e', osc := (v.osc.next).2 } : Voice).t ≤ k := by
          show v.length - (v.t + 1) ≤ k
          omega
        rcases ih _ hOKw hmeas with ⟨n, hn⟩ | ⟨n, u, hu, hrelu, hOKu⟩
        · left
          refine ⟨1 + n, ?_⟩
          rw [voice_steps_add, hsv]
          simpa using hn
        · right
          refine ⟨1 + n, u, ?_, hrelu, hOKu⟩
          rw [voice_steps_add, hsv]
          simpa using hu

lemma voice_dies {v : Voice} (hOK : VoiceOK v) : ∃ n, Voice.steps v n = none := by
  rcases voice_reaches_release (v.length - v.t) v hOK le_rfl with h | ⟨n, w, hw, hrel, hwOK⟩
  · exact h
  · obtain ⟨m, hm⟩ := voice_released_dies hwOK hrel
    refine ⟨n + m, ?_⟩
    rw [voice_steps_add, hw]
    simpa using hm

lemma pool_dies {pool : List Voice} (h : ∀ v ∈ pool, VoiceOK v) :
    ∃ N, ∀ v ∈ pool, Voice.steps v N = none := by
  induction pool with
  | nil => exact ⟨0, by simp⟩
  | cons v rest ih =>
    obtain ⟨N1, hN1⟩ := ih fun u hu => h u (List.mem_cons_of_mem v hu)
    obtain ⟨n, hn⟩ := voice_dies (h v (List.mem_cons_self v rest))
    refine ⟨max n N1, fun u hu => ?_⟩
    rcases List.mem_cons.mp hu with rfl | hu2
    · exact voice_steps_none_mono hn (le_max_left n N1)
    · exact voice_steps_none_mono (hN1 u hu2) (le_max_right n N1)

/-! Admission-loop lemmas. -/

lemma admit_none (t : ℚ) (pool : List Voice) (stopping : Bool)
    (up : List (ℚ × List Voice)) :
    admitVoices t pool stopping none up = (pool, stopping, none, up) := by
  cases up <;> rfl

lemma admit_not_due (t : ℚ) (pool : List Voice) (stopping : Bool)
    {g : ℚ × List Voice} (up : List (ℚ × List Voice)) (h : ¬ g.1 ≤ t) :
    admitVoices t pool stopping (some g) up = (pool, stopping, some g, up) := by
  cases up <;> simp [admitVoices, h]

lemma admit_due_nil (t : ℚ) (pool : List Voice) (stopping : Bool)
    {g : ℚ × List Voice} (h : g.1 ≤ t) :
    admitVoices t pool stopping (some g) [] = (pool ++ g.2, true, none, []) := by
  simp [admitVoices, h]

lemma admit_due_cons (t : ℚ) (pool : List Voice) (stopping : Bool)
    {g : ℚ × List Voice} (x : ℚ × List Voice) (rest : List (ℚ × List Voice))
    (h : g.1 ≤ t) :
    admitVoices t pool stopping (some g) (x :: rest) =
      admitVoices t (pool ++ g.2) stopping (some x) rest := by
  simp [admitVoices, h]

lemma admitVoices_invariants (t : ℚ) :
    ∀ (up : List (ℚ × List Voice)) (pool : List Voice) (stopping : Bool)
      (cur : Option (ℚ × List Voice)),
      (stopping = cur.isNone →
        (admitVoices t pool stopping cur up).2.1 =
          ((admitVoices t pool stopping cur up).2.2.1).isNone) ∧
      ((∀ v ∈ pool, VoiceOK v) → GroupsOK cur up →
        (∀ v ∈ (admitVoices t pool stopping cur up).1, VoiceOK v) ∧
        GroupsOK (admitVoices t pool stopping cur up).2.2.1
          (admitVoices t pool stopping cur up).2.2.2) ∧
      groupsCount (admitVoices t pool stopping cur up).2.2.1
          (admitVoices t pool stopping cur up).2.2.2 ≤ groupsCount cur up := by
  intro up
  induction up with
  | nil =>
    intro pool stopping cur
    cases cur with
    | none =>
      rw [admit_none]
      exact ⟨fun h => h, fun h1 h2 => ⟨h1, h2⟩, le_rfl⟩
    | some g =>
      by_cases hle : g.1 ≤ t
      · rw [admit_due_nil t pool stopping hle]
        refine ⟨fun _ => rfl, fun h1 h2 => ⟨?_, ?_⟩, ?_⟩
        · intro v hv
          rcases List.mem_append.mp hv with hv1 | hv2
          · exact h1 v hv1
          · exact h2.1 g (by simp) v hv2
        · exact ⟨by simp, by simp⟩
        · simp [groupsCount]
      · rw [admit_not_due t pool stopping [] hle]
        exact ⟨fun h => h, fun h1 h2 => ⟨h1, h2⟩, le_rfl⟩
  | cons x rest ih =>
    intro pool stopping cur
    cases cur with
    | none =>
      rw [admit_none]
      exact ⟨fun h => h, fun h1 h2 => ⟨h1, h2⟩, le_rfl⟩
    | some g =>
      by_cases hle : g.1 ≤ t
      · rw [admit_due_cons t pool stopping x rest hle]
        obtain ⟨ha, hb, hc⟩ := ih (pool ++ g.2) stopping (some x)
        refine ⟨ha, ?_, ?_⟩
        · intro h1 h2
          refine hb ?_ ?_
          · intro v hv
            rcases List.mem_append.mp hv with hv1 | hv2
            · exact h1 v hv1
            · exact h2.1 g (by simp) v hv2
          · constructor
            · intro g2 hg2 v hv
              have hx : g2 = x := by simpa using hg2
              subst hx
              exact h2.2 g2 (List.mem_cons_self g2 rest) v hv
            · exact fun g2 hg2 v hv => h2.2 g2 (List.mem_cons_of_mem x hg2) v hv
        · refine le_trans hc ?_
          simp [groupsCount]
      · rw [admit_not_due t pool stopping (x :: rest) hle]
        exact ⟨fun h => h, fun h1 h2 => ⟨h1, h2⟩, le_rfl⟩

lemma admitVoices_consumes (t : ℚ) (up : List (ℚ × List Voice)) (pool : List Voice)
    (stopping : Bool) {g : ℚ × List Voice} (hle : g.1 ≤ t) :
    groupsCount (admitVoices t pool stopping (some g) up).2.2.1
        (admitVoices t pool stopping (some g) up).2.2.2 <
      groupsCount (some g) up := by
  cases up with
  | nil =>
    rw [admit_due_nil t pool stopping hle]
    simp [groupsCount]
  | cons x rest =>
    rw [admit_due_cons t pool stopping x rest hle]
    have hc := (admitVoices_invariants t rest (pool ++ g.2) stopping (some x)).2.2
    simp only [groupsCount] at hc ⊢
    simp only [List.length_cons]
    omega

/-! Mixer stream lemmas. -/

lemma mixerAfter_add (st : MixerState) (a b : ℕ) :
    mixerAfter st (a + b) = (mixerAfter st a).bind fun w => mixerAfter w b := by
  induction b with
  | zero =>
    rw [Nat.add_zero]
    cases h : mixerAfter st a <;> rfl
  | succ b ih =>
    show mixerAfter st (a + b + 1) = _
    rw [mixerAfter, ih]
    cases mixerAfter st a with
    | none => rfl
    | some w => rfl

lemma mixerAfter_none_mono {st : MixerState} {a : ℕ} (h : mixerAfter st a = none)
    {b : ℕ} (hab : a ≤ b) : mixerAfter st b = none := by
  obtain ⟨c, rfl⟩ := Nat.exists_eq_add_of_le hab
  rw [mixerAfter_add, h]
  rfl

lemma voice_combiner_step_eq (st : MixerState) (pool1 : List Voice) (stop1 : Bool)
    (cur1 : Option (ℚ × List Voice)) (up1 : List (ℚ × List Voice))
    (hA : admitVoices st.t st.voice_pool st.stopping st.current st.upcoming =
      (pool1, stop1, cur1, up1)) :
    voice_combiner_step st = if stop1 && (pollVoices pool1).2.isEmpty then none
      else some ((pollVoices pool1).1,
        ⟨st.t + 1000 / 44100, stop1, (pollVoices pool1).2, cur1, up1⟩) := by
  simp only [voice_combiner_step, hA]

lemma filterMap_steps_zero (l : List Voice) :
    (l.filterMap fun v => Voice.steps v 0) = l := by
  induction l with
  | nil => rfl
  | cons v rest ih => simp [Voice.steps, List.filterMap_cons, ih]

lemma mixer_stopping_run (n : ℕ) :
    ∀ st : MixerState, st.current = none → st.stopping = true →
      mixerAfter st n = none ∨
      ∃ w, mixerAfter st n = some w ∧ w.current = none ∧ w.stopping = true ∧
        w.upcoming = st.upcoming ∧
        w.voice_pool = st.voice_pool.filterMap fun v => Voice.steps v n := by
  induction n with
  | zero =>
    intro st h1 h2
    exact Or.inr ⟨st, rfl, h1, h2, rfl, (filterMap_steps_zero _).symm⟩
  | succ n ih =>
    intro st h1 h2
    rcases ih st h1 h2 with hnone | ⟨w, hw, hc, hs, hup, hp⟩
    · left
      rw [mixerAfter, hnone]
      rfl
    · have hstep := voice_combiner_step_eq w w.voice_pool w.stopping none w.upcoming
        (by rw [hc]; exact admit_none _ _ _ _)
      by_cases hempty : (pollVoices w.voice_pool).2.isEmpty = true
      · left
        rw [mixerAfter, hw]
        simp only [Option.some_bind]
        rw [hstep, hs, hempty]
        rfl
      · right
        have hemp' : (w.stopping && (pollVoices w.voice_pool).2.isEmpty) = false := by
          rw [hs]
          simp only [Bool.true_and]
          exact Bool.not_eq_true _ ▸ hempty
        refine ⟨⟨w.t + 1000 / 44100, w.stopping, (pollVoices w.voice_pool).2, none,
          w.upcoming⟩, ?_, rfl, hs, hup, ?_⟩
        · rw [mixerAfter, hw]
          simp only [Option.some_bind]
          rw [hstep, hemp']
          rfl
        · show (pollVoices w.voice_pool).2 = _
          rw [pollVoices_snd, hp, List.filterMap_filterMap]
          rfl

lemma mixer_stopping_dies {st : MixerState} (h1 : st.current = none)
    (h2 : st.stopping = true) (hOK : ∀ v ∈ st.voice_pool, VoiceOK v) :
    ∃ N, mixerAfter st N = none := by
  obtain ⟨N, hN⟩ := pool_dies hOK
  rcases mixer_stopping_run N st h1 h2 with h | ⟨w, hw, hc, hs, -, hp⟩
  · exact ⟨N, h⟩
  · refine ⟨N + 1, ?_⟩
    rw [mixerAfter, hw]
    simp only [Option.some_bind]
    have hpool : w.voice_pool = [] := by
      rw [hp]
      exact List.filterMap_eq_nil_iff.mpr fun v hv => hN v hv
    have hstep := voice_combiner_step_eq w w.voice_pool w.stopping none w.upcoming
      (by rw [hc]; exact admit_none _ _ _ _)
    rw [hstep, hs, hpool]
    rfl

lemma mixer_tick_wait {st : MixerState} (hOK : MixerOK st) {g : ℚ × List Voice}
    (hc : st.current = some g) (hgt : ¬ g.1 ≤ st.t) :
    ∃ x st', voice_combiner_step st = some (x, st') ∧ MixerOK st' ∧
      st'.current = st.current ∧ st'.upcoming = st.upcoming ∧
      st'.t = st.t + 1000 / 44100 := by
  have hstop : st.stopping = false := by rw [hOK.1, hc]; rfl
  have hstep := voice_combiner_step_eq st st.voice_pool st.stopping (some g)
    st.upcoming (by rw [hc]; exact admit_not_due st.t st.voice_pool st.stopping st.upcoming hgt)
  rw [hstop] at hstep
  refine ⟨(pollVoices st.voice_pool).1,
    ⟨st.t + 1000 / 44100, false, (pollVoices st.voice_pool).2, some g, st.upcoming⟩,
    ?_, ⟨rfl, ?_, ?_⟩, hc.symm, rfl, rfl⟩
  · rw [hstep]
    simp only [Bool.false_and, Bool.false_eq_true, if_false]
  · exact pollVoices_OK hOK.2.1
  · show GroupsOK (some g) st.upcoming
    rw [← hc]
    exact hOK.2.2

lemma mixer_tick_admit {st : MixerState} (hOK : MixerOK st) {g : ℚ × List Voice}
    (hc : st.current = some g) (hle : g.1 ≤ st.t) :
    voice_combiner_step st = none ∨
    ∃ x st', voice_combiner_step st = some (x, st') ∧ MixerOK st' ∧
      groupsCount st'.current st'.upcoming < groupsCount st.current st.upcoming := by
  set A := admitVoices st.t st.voice_pool st.stopping st.current st.upcoming with hAdef
  have hA : admitVoices st.t st.voice_pool st.stopping st.current st.upcoming =
      (A.1, A.2.1, A.2.2.1, A.2.2.2) := rfl
  have hstep := voice_combiner_step_eq st A.1 A.2.1 A.2.2.1 A.2.2.2 hA
  have hinv := admitVoices_invariants st.t st.upcoming st.voice_pool st.stopping st.current
  have hstopinv : A.2.1 = (A.2.2.1).isNone := hinv.1 hOK.1
  have hOKres := hinv.2.1 hOK.2.1 hOK.2.2
  have hAc : A = admitVoices st.t st.voice_pool st.stopping (some g) st.upcoming := by
    rw [hAdef, hc]
  have hcount : groupsCount A.2.2.1 A.2.2.2 < groupsCount st.current st.upcoming := by
    rw [hc, hAc]
    exact admitVoices_consumes st.t st.upcoming st.voice_pool st.stopping hle
  by_cases hend : (A.2.1 && (pollVoices A.1).2.isEmpty) = true
  · left
    rw [hstep, if_pos hend]
  · right
    refine ⟨(pollVoices A.1).1,
      ⟨st.t + 1000 / 44100, A.2.1, (pollVoices A.1).2, A.2.2.1, A.2.2.2⟩,
      ?_, ⟨hstopinv, ?_, ?_⟩, ?_⟩
    · rw [hstep, if_neg hend]
    · exact pollVoices_OK hOKres.1
    · exact hOKres.2
    · exact hcount

lemma mixer_after_one (st : MixerState) :
    mixerAfter st 1 = (voice_combiner_step st).map Prod.snd := rfl

lemma mixer_wait (k : ℕ) :
    ∀ st : MixerState, MixerOK st → ∀ g, st.current = some g →
      g.1 ≤ st.t + k * (1000 / 44100) →
      ∃ N, mixerAfter st N = none ∨
        ∃ st', mixerAfter st N = some st' ∧ MixerOK st' ∧
          groupsCount st'.current st'.upcoming <
            groupsCount st.current st.upcoming := by
  induction k with
  | zero =>
    intro st hOK g hc hle
    have hle' : g.1 ≤ st.t := by
      push_cast at hle
      linarith
    rcases mixer_tick_admit hOK hc hle' with hnone | ⟨x, st', hst', hOK', hcnt⟩
    · refine ⟨1, Or.inl ?_⟩
      rw [mixer_after_one, hnone]
      rfl
    · refine ⟨1, Or.inr ⟨st', ?_, hOK', hcnt⟩⟩
      rw [mixer_after_one, hst']
      rfl
  | succ k ih =>
    intro st hOK g hc hle
    by_cases hd : g.1 ≤ st.t
    · rcases mixer_tick_admit hOK hc hd with hnone | ⟨x, st', hst', hOK', hcnt⟩
      · refine ⟨1, Or.inl ?_⟩
        rw [mixer_after_one, hnone]
        rfl
      · refine ⟨1, Or.inr ⟨st', ?_, hOK', hcnt⟩⟩
        rw [mixer_after_one, hst']
        rfl
    · obtain ⟨x, st1, hst1, hOK1, hcur1, hup1, ht1⟩ := mixer_tick_wait hOK hc hd
      have hc1 : st1.current = some g := by rw [hcur1, hc]
      have hle1 : g.1 ≤ st1.t + k * (1000 / 44100) := by
        rw [ht1]
        push_cast at hle ⊢
        linarith
      obtain ⟨N, hN⟩ := ih st1 hOK1 g hc1 hle1
      have hafter : mixerAfter st (1 + N) = mixerAfter st1 N := by
        rw [mixerAfter_add, mixer_after_one, hst1]
        rfl
      have hcnteq : groupsCount st1.current st1.upcoming =
          groupsCount st.current st.upcoming := by
        rw [hcur1, hup1]
      rcases hN with h | ⟨st', hst', hOK', hcnt⟩
      · exact ⟨1 + N, Or.inl (by rw [hafter]; exact h)⟩
      · exact ⟨1 + N, Or.inr ⟨st', by rw [hafter]; exact hst', hOK',
          by rw [← hcnteq]; exact hcnt⟩⟩

lemma mixer_terminates :
    ∀ (c : ℕ) (st : MixerState), MixerOK st →
      groupsCount st.current st.upcoming ≤ c →
      ∃ N, mixerAfter st N = none := by
  intro c
  induction c with
  | zero =>
    intro st hOK hc
    cases hcur : st.current with
    | some g =>
      rw [hcur] at hc
      simp [groupsCount] at hc
    | none =>
      have hstop : st.stopping = true := by rw [hOK.1, hcur]; rfl
      exact mixer_stopping_dies hcur hstop hOK.2.1
  | succ c ih =>
    intro st hOK hc
    cases hcur : st.current with
    | none =>
      have hstop : st.stopping = true := by rw [hOK.1, hcur]; rfl
      exact mixer_stopping_dies hcur hstop hOK.2.1
    | some g =>
      have hdelta : (0 : ℚ) < 1000 / 44100 := by norm_num
      obtain ⟨k, hk⟩ := exists_nat_ge ((g.1 - st.t) / (1000 / 44100))
      have hle : g.1 ≤ st.t + k * (1000 / 44100) := by
        rw [div_le_iff₀ hdelta] at hk
        linarith
      obtain ⟨N, hN⟩ := mixer_wait k st hOK g hcur hle
      rcases hN with h | ⟨st', hst', hOK', hcnt⟩
      · exact ⟨N, h⟩
      · have hc' : groupsCount st'.current st'.upcoming ≤ c := by
          rw [hcur] at hc hcnt
          omega
        obtain ⟨M, hM⟩ := ih st' hOK' hc'
        refine ⟨N + M, ?_⟩
        rw [mixerAfter_add, hst']
        simpa using hM

lemma VoiceOK_init (note : ℤ) (length : ℕ) : VoiceOK (Voice.init note length) :=
  ⟨rfl, rfl, rfl, rfl, le_rfl, inv_envRatio_pos.le⟩

/-- Claim C3: the mixer stream is finite.  Per tick, the stream ends
(the generator raises StopIteration) precisely when the group source is
exhausted (stopping set after the admission loop) and the pool is empty
after the removal pass; whenever either condition fails, the tick yields
exactly one mixed sample.  Once a tick ends the stream, no further
sample is ever produced.  And for any finite voice-group list whose
voices satisfy the voice invariant (as all freshly scheduled voices do),
the whole output stream is finite: from some tick N on, no sample is
produced. -/
theorem claim_C3_mixer_termination (groups : List (ℚ × List Voice))
    (hOK : ∀ g ∈ groups, ∀ v ∈ g.2, VoiceOK v) :
    (∀ st : MixerState, voice_combiner_step st = none ↔
        (admittedStopping st = true ∧ (pollVoices (admittedPool st)).2 = [])) ∧
    (∀ st : MixerState, voice_combiner_step st = none →
        ∀ n, mixerSample st n = none) ∧
    (∀ (st : MixerState) (x : ℝ) (st' : MixerState),
        voice_combiner_step st = some (x, st') → mixerSample st 0 = some x) ∧
    ∃ N, ∀ n, N ≤ n → voice_combiner groups n = none := by
  have hsteps : ∀ st : MixerState, voice_combiner_step st =
      if admittedStopping st && (pollVoices (admittedPool st)).2.isEmpty then none
      else some ((pollVoices (admittedPool st)).1,
        ⟨st.t + 1000 / 44100, admittedStopping st, (pollVoices (admittedPool st)).2,
          (admitVoices st.t st.voice_pool st.stopping st.current st.upcoming).2.2.1,
          (admitVoices st.t st.voice_pool st.stopping st.current st.upcoming).2.2.2⟩) :=
    fun st => voice_combiner_step_eq st (admittedPool st) (admittedStopping st) _ _ rfl
  refine ⟨?_, ?_, ?_, ?_⟩
  · intro st
    constructor
    · intro h
      by_cases hcond : (admittedStopping st &&
          (pollVoices (admittedPool st)).2.isEmpty) = true
      · simp only [Bool.and_eq_true] at hcond
        exact ⟨hcond.1, List.isEmpty_iff.mp hcond.2⟩
      · rw [hsteps st, if_neg hcond] at h
        cases h
    · intro h
      have hcond : (admittedStopping st &&
          (pollVoices (admittedPool st)).2.isEmpty) = true := by
        rw [h.1, h.2]
        rfl
      rw [hsteps st, if_pos hcond]
  · intro st h n
    cases n with
    | zero =>
      show (mixerAfter st 0).bind _ = none
      show (voice_combiner_step st).map Prod.fst = none
      rw [h]
      rfl
    | succ n =>
      have h1 : mixerAfter st 1 = none := by
        rw [mixer_after_one, h]
        rfl
      have h2 := mixerAfter_none_mono h1 (show 1 ≤ n + 1 by omega)
      unfold mixerSample
      rw [h2]
      rfl
  · intro st x st' h
    show (mixerAfter st 0).bind _ = some x
    show (voice_combiner_step st).map Prod.fst = some x
    rw [h]
    rfl
  · cases groups with
    | nil => exact ⟨0, fun n _ => rfl⟩
    | cons g rest =>
      have hOKst : MixerOK ⟨0, false, [], some g, rest⟩ := by
        refine ⟨rfl, by simp, ?_, ?_⟩
        · intro g2 hg2 v hv
          have hg : g2 = g := by simpa using hg2
          subst hg
          exact hOK g2 (List.mem_cons_self g2 rest) v hv
        · intro g2 hg2 v hv
          exact hOK g2 (List.mem_cons_of_mem g hg2) v hv
      obtain ⟨N, hN⟩ := mixer_terminates (groupsCount (some g) rest)
        ⟨0, false, [], some g, rest⟩ hOKst le_rfl
      refine ⟨N, fun n hn => ?_⟩
      show (voice_combiner_init (g :: rest)).bind _ = none
      show mixerSample ⟨0, false, [], some g, rest⟩ n = none
      unfold mixerSample
      rw [mixerAfter_none_mono hN hn]
      rfl

/-- Witness for claim C3: the one-group schedule consisting of the
single fresh voice Voice(69, 1) at start time 0 produces a finite
stream. -/
theorem claim_C3_witness :
    ∃ N, ∀ n, N ≤ n →
      voice_combiner [((0 : ℚ), [Voice.init 69 1])] n = none :=
  (claim_C3_mixer_termination [((0 : ℚ), [Voice.init 69 1])]
    (by
      intro g hg v hv
      have hg' : g = ((0 : ℚ), [Voice.init 69 1]) := by simpa using hg
      subst hg'
      have hv' : v = Voice.init 69 1 := by simpa using hv
      subst hv'
      exact VoiceOK_init 69 1)).2.2.2

/-- Claim C6: after any tick that yields a sample, the new pool consists
exactly of the once-polled successors of the admitted pool's voices that
returned a sample (each pooled voice is polled exactly once, exhausted
voices are dropped only after the full pass, and the pass itself reads
the admitted pool unchanged); the yielded sample is the sum of the
returned samples; hence every voice remaining in the pool produced a
non-exhausted sample on that same tick. -/
theorem claim_C6_no_stale_voice :
    ∀ (st : MixerState) (x : ℝ) (st' : MixerState),
      voice_combiner_step st = some (x, st') →
      st'.voice_pool = (admittedPool st).filterMap (fun v => (v.next).map Prod.snd) ∧
      x = ((admittedPool st).filterMap fun v => (v.next).map Prod.fst).sum ∧
      ∀ w ∈ st'.voice_pool, ∃ u ∈ admittedPool st, ∃ y, u.next = some (y, w) := by
  intro st x st' h
  have hstep := voice_combiner_step_eq st (admittedPool st) (admittedStopping st)
    (admitVoices st.t st.voice_pool st.stopping st.current st.upcoming).2.2.1
    (admitVoices st.t st.voice_pool st.stopping st.current st.upcoming).2.2.2 rfl
  rw [hstep] at h
  by_cases hcond : (admittedStopping st &&
      (pollVoices (admittedPool st)).2.isEmpty) = true
  · rw [if_pos hcond] at h
    cases h
  · rw [if_neg hcond] at h
    obtain ⟨hx, hst'⟩ := Prod.mk.injEq _ _ _ _ ▸ Option.some.inj h
    refine ⟨?_, hx.symm.trans (pollVoices_fst _), ?_⟩
    · rw [← hst']
      exact pollVoices_snd _
    · intro w hw
      have hpool : st'.voice_pool =
          (admittedPool st).filterMap fun v => (v.next).map Prod.snd := by
        rw [← hst']
        exact pollVoices_snd _
      rw [hpool] at hw
      obtain ⟨u, hu, hmap⟩ := List.mem_filterMap.mp hw
      obtain ⟨p, hp, hpw⟩ := Option.map_eq_some'.mp hmap
      obtain ⟨y, w'⟩ := p
      cases hpw
      exact ⟨u, hu, y, hp⟩

/-- Witness for claim C6: a tick of the state with clock 0, an empty
pool and one pending group scheduled at time 5 (not yet due). -/
theorem claim_C6_witness :
    (⟨0 + 1000 / 44100, false, [], some (5, []), []⟩ : MixerState).voice_pool =
      (admittedPool ⟨0, false, [], some (5, []), []⟩).filterMap
        (fun v => (v.next).map Prod.snd) ∧
    (0 : ℝ) = ((admittedPool ⟨0, false, [], some (5, []), []⟩).filterMap
        fun v => (v.next).map Prod.fst).sum ∧
    ∀ w ∈ (⟨0 + 1000 / 44100, false, [], some (5, []), []⟩ :
        MixerState).voice_pool,
      ∃ u ∈ admittedPool ⟨0, false, [], some (5, []), []⟩,
        ∃ y, u.next = some (y, w) := by
  refine claim_C6_no_stale_voice ⟨0, false, [], some (5, []), []⟩ 0
    ⟨0 + 1000 / 44100, false, [], some (5, []), []⟩ ?_
  have hstep := voice_combiner_step_eq ⟨0, false, [], some (5, []), []⟩
    [] false (some (5, [])) []
    (admit_not_due 0 [] false [] (by norm_num))
  rw [hstep]
  rfl

end Synth
